import Mathlib

/-!
Shallow embedding of the cw-starter voting contract (src/src/contract.rs).

Storage is modelled at the level of the contract's storage interface:
`POLLS` is an ordered map from poll id to `Poll` (kept as a strictly sorted
association list, mirroring the ordered key-value backend over which
cw-storage-plus iterates in ascending key order), `BALLOTS` is a map from
(sender, poll id) to `Ballot` (association list, write = replace-or-append).
Every storage write performed by an execute entry point takes effect
immediately, so a failing call returns both the error and the storage as the
call left it; a Rust panic (`unwrap` on `None`, checked `u64` underflow) is
the `fatal` outcome.
-/

namespace Voting

/-- Error enum of the contract (`ContractError` in the repository). -/
inductive ContractError where
  | unauthorized
  | pollNotFound
  | tooManyOptions
deriving DecidableEq

/-- A ballot records the option currently chosen by one account in one poll. -/
structure Ballot where
  option : String
deriving DecidableEq

/-- A poll: creator, question, and an ordered list of (label, count) pairs. -/
structure Poll where
  creator : String
  question : String
  options : List (String × Nat)
deriving DecidableEq

/-- Contract storage: the POLLS map and the BALLOTS map. -/
structure State where
  polls : List (String × Poll)
  ballots : List ((String × String) × Ballot)
deriving DecidableEq

/-- Outcome of an execute entry point. `ok` and `err` carry the storage as
left by the call (writes already performed remain); `fatal` is a Rust panic. -/
inductive ExecResult where
  | ok (s : State)
  | err (e : ContractError) (s : State)
  | fatal
deriving DecidableEq

/-- First-match lookup in the POLLS association list (`POLLS.may_load`). -/
def lookupPoll : List (String × Poll) → String → Option Poll
  | [], _ => none
  | (k, v) :: rest, pid => if k = pid then some v else lookupPoll rest pid

/-- Lexicographic order on poll ids: the ascending key order of the
ordered key-value backend (byte order of the UTF-8 keys). -/
def keyLt (a b : String) : Prop := a.data < b.data

instance (a b : String) : Decidable (keyLt a b) := by
  unfold keyLt; infer_instance

/-- Ordered insert-or-replace on the POLLS association list (`POLLS.save`). -/
def pollsSave : List (String × Poll) → String → Poll → List (String × Poll)
  | [], pid, p => [(pid, p)]
  | (k, v) :: rest, pid, p =>
    if keyLt pid k then (pid, p) :: (k, v) :: rest
    else if pid = k then (pid, p) :: rest
    else (k, v) :: pollsSave rest pid p

/-- First-match lookup in the BALLOTS association list (`BALLOTS.may_load`). -/
def lookupBallot : List ((String × String) × Ballot) → String × String → Option Ballot
  | [], _ => none
  | (k, v) :: rest, key => if k = key then some v else lookupBallot rest key

/-- Replace-or-append write to BALLOTS (the store performed by
`BALLOTS.update`). -/
def ballotsPut : List ((String × String) × Ballot) → String × String → Ballot →
    List ((String × String) × Ballot)
  | [], key, b => [(key, b)]
  | (k, v) :: rest, key, b =>
    if k = key then (key, b) :: rest else (k, v) :: ballotsPut rest key b

/-- Rust `options.iter().position(|option| option.0 == lbl)`. -/
def position : List (String × Nat) → String → Option Nat
  | [], _ => none
  | (l, _) :: rest, lbl =>
    if l = lbl then some 0 else (position rest lbl).map (· + 1)

/-- In-place update of the list element at an index
(`poll.options[i].1 -= 1` and `poll.options[i].1 += 1`). -/
def modifyIdx (f : String × Nat → String × Nat) :
    Nat → List (String × Nat) → List (String × Nat)
  | _, [] => []
  | 0, x :: rest => f x :: rest
  | n + 1, x :: rest => x :: modifyIdx f n rest

/-- `execute_create_poll` of contract.rs: reject more than 5 options,
otherwise build the zero-count option list in caller order and save
unconditionally under `pid`. -/
def execute_create_poll (s : State) (sender pid question : String)
    (options : List String) : ExecResult :=
  if options.length > 5 then
    .err .tooManyOptions s
  else
    let opts := options.map (fun o => (o, 0))
    let poll : Poll := ⟨sender, question, opts⟩
    .ok ⟨pollsSave s.polls pid poll, s.ballots⟩

/-- Tail of `execute_vote` after the `BALLOTS.update` call: locate the new
vote's option in the (possibly locally decremented) poll; absent means
`Unauthorized` — with the new ballot already written; present means
increment and `POLLS.save`. -/
def finishVote (s : State) (pid vote : String) (poll : Poll)
    (ballots1 : List ((String × String) × Ballot)) : ExecResult :=
  match position poll.options vote with
  | none => .err .unauthorized ⟨s.polls, ballots1⟩
  | some j =>
    let poll2 : Poll :=
      ⟨poll.creator, poll.question, modifyIdx (fun o => (o.fst, o.snd + 1)) j poll.options⟩
    .ok ⟨pollsSave s.polls pid poll2, ballots1⟩

/-- `execute_vote` of contract.rs. Absent poll: `PollNotFound`, no writes.
Existing poll: `BALLOTS.update` — on a prior ballot, `position(..).unwrap()`
(panic when absent) then a checked decrement of that count on the in-memory
poll (panic on underflow), and in either case write the new ballot — then
`finishVote`. -/
def execute_vote (s : State) (sender pid vote : String) : ExecResult :=
  match lookupPoll s.polls pid with
  | none => .err .pollNotFound s
  | some poll =>
    match lookupBallot s.ballots (sender, pid) with
    | some ballot =>
      match position poll.options ballot.option with
      | none => .fatal
      | some i =>
        match poll.options[i]? with
        | none => .fatal
        | some lc =>
          if lc.snd = 0 then .fatal
          else
            let poll1 : Poll :=
              ⟨poll.creator, poll.question,
                modifyIdx (fun o => (o.fst, o.snd - 1)) i poll.options⟩
            finishVote s pid vote poll1 (ballotsPut s.ballots (sender, pid) ⟨vote⟩)
    | none =>
      finishVote s pid vote poll (ballotsPut s.ballots (sender, pid) ⟨vote⟩)

/-- `query_all_polls`: ascending range over POLLS, keeping the values. -/
def query_all_polls (s : State) : List Poll := s.polls.map Prod.snd

/-- `query_poll`: the poll under `pid`, if any. -/
def query_poll (s : State) (pid : String) : Option Poll := lookupPoll s.polls pid

/-- `query_vote`: the ballot of `addr` in poll `pid`, if any. -/
def query_vote (s : State) (addr pid : String) : Option Ballot :=
  lookupBallot s.ballots (addr, pid)

/-- Does a ballot-map entry belong to poll `pid` with chosen label `lbl`. -/
def isBallotFor (pid lbl : String) (kv : (String × String) × Ballot) : Bool :=
  kv.fst.snd == pid && kv.snd.option == lbl

/-- Number of stored ballots naming poll `pid` whose option equals `lbl`. -/
def ballotCount (ballots : List ((String × String) × Ballot))
    (pid lbl : String) : Nat :=
  ballots.countP (isBallotFor pid lbl)

/-- Does a ballot-map entry belong to poll `pid`. -/
def isForPoll (pid : String) (kv : (String × String) × Ballot) : Bool :=
  kv.fst.snd == pid

/-- Number of stored ballots naming poll `pid`. -/
def numBallots (ballots : List ((String × String) × Ballot)) (pid : String) : Nat :=
  ballots.countP (isForPoll pid)

/-- The count recorded at the first option entry carrying label `lbl`
(0 when no entry does): the tally the code reads and updates for `lbl`. -/
def optCount : List (String × Nat) → String → Nat
  | [], _ => 0
  | (l, c) :: rest, lbl => if l = lbl then c else optCount rest lbl

/-- The label sequence of a poll. -/
def labelsOf (poll : Poll) : List String := poll.options.map Prod.fst

/-- Apply `g` to the count of the first option entry labelled `lbl` (what the
code's position-then-index-assign pair amounts to). -/
def bump (g : Nat → Nat) : List (String × Nat) → String → List (String × Nat)
  | [], _ => []
  | (l, c) :: rest, lbl =>
    if l = lbl then (l, g c) :: rest else (l, c) :: bump g rest lbl

/-- The two execute operations of the contract. -/
inductive Op where
  | create (sender pid question : String) (options : List String)
  | vote (sender pid choice : String)
deriving DecidableEq

/-- Dispatch an operation (the `execute` entry point). -/
def applyOp (s : State) : Op → ExecResult
  | .create sender pid q opts => execute_create_poll s sender pid q opts
  | .vote sender pid choice => execute_vote s sender pid choice

/-- Storage after an operation: both success and failure leave the writes the
call performed; a panic aborts the run. -/
def stepState (s : State) (op : Op) : Option State :=
  match applyOp s op with
  | .ok s1 => some s1
  | .err _ s1 => some s1
  | .fatal => none

/-- Storage right after instantiation: no polls, no ballots. -/
def initState : State := ⟨[], []⟩

/-- Run a list of operations from a given storage. -/
def runFrom (s : State) : List Op → Option State
  | [] => some s
  | op :: rest =>
    match stepState s op with
    | none => none
    | some s1 => runFrom s1 rest

/-- Run a list of operations from the initialized storage. -/
def runTrace (ops : List Op) : Option State := runFrom initState ops

/-- Poll ids of the create operations that succeed (length at most 5),
in order of occurrence. -/
def createdIds : List Op → List String
  | [] => []
  | .create _ pid _ opts :: rest =>
    if opts.length ≤ 5 then pid :: createdIds rest else createdIds rest
  | .vote _ _ _ :: rest => createdIds rest

/-- The tally invariant of the spec: every stored option count equals the
number of stored ballots for that poll and label. -/
def TallyInv (s : State) : Prop :=
  ∀ pid poll, lookupPoll s.polls pid = some poll →
    ∀ lc ∈ poll.options, lc.snd = ballotCount s.ballots pid lc.fst

/-- Every stored ballot names an existing poll and one of its labels. -/
def BallotsValid (s : State) : Prop :=
  ∀ kv ∈ s.ballots, ∃ poll, lookupPoll s.polls kv.fst.snd = some poll ∧
    kv.snd.option ∈ labelsOf poll

/-- Every stored poll has pairwise distinct option labels. -/
def LabelsNodup (s : State) : Prop :=
  ∀ pid poll, lookupPoll s.polls pid = some poll → (labelsOf poll).Nodup

/-- The POLLS association list is strictly sorted by key. -/
def PollsSorted (s : State) : Prop := List.Sorted keyLt (s.polls.map Prod.fst)

/-- The inductive invariant carried through reachability. -/
def Inv (s : State) : Prop :=
  TallyInv s ∧ BallotsValid s ∧ LabelsNodup s ∧ PollsSorted s

/-- States reachable from the initialized storage through successful
operations only, where every create uses a fresh poll id and pairwise
distinct labels. -/
inductive Reachable : State → Prop where
  | init : Reachable initState
  | create (s s1 : State) (sender pid q : String) (opts : List String) :
      Reachable s →
      lookupPoll s.polls pid = none →
      opts.Nodup →
      execute_create_poll s sender pid q opts = .ok s1 →
      Reachable s1
  | vote (s s1 : State) (sender pid choice : String) :
      Reachable s →
      execute_vote s sender pid choice = .ok s1 →
      Reachable s1

/-- The per-state property claimed by the spec's tally invariant: every stored
option count equals the number of matching ballots, and every poll's count sum
equals the number of ballots naming that poll. -/
def TallyProperty (s : State) : Prop :=
  (∀ pid poll, lookupPoll s.polls pid = some poll →
    ∀ lc ∈ poll.options, lc.snd = ballotCount s.ballots pid lc.fst) ∧
  (∀ pid poll, lookupPoll s.polls pid = some poll →
    (poll.options.map Prod.snd).sum = numBallots s.ballots pid)

/-! Facts about the key order. -/

theorem keyLt_trans {a b c : String} (h1 : keyLt a b) (h2 : keyLt b c) : keyLt a c :=
  lt_trans h1 h2

theorem keyLt_irrefl (a : String) : ¬ keyLt a a := lt_irrefl a.data

theorem keyLt_asymm {a b : String} (h1 : keyLt a b) (h2 : keyLt b a) : False :=
  keyLt_irrefl a (keyLt_trans h1 h2)

theorem keyLt_ne {a b : String} (h : keyLt a b) : a ≠ b := by
  intro e
  subst e
  exact keyLt_irrefl a h

theorem keyLt_of_not_of_ne {a b : String} (h1 : ¬ keyLt a b) (h2 : a ≠ b) : keyLt b a := by
  rcases lt_trichotomy a.data b.data with h | h | h
  · exact absurd h h1
  · exact absurd (by cases a; cases b; cases h; rfl) h2
  · exact h

/-! Facts about POLLS lookup and save. -/

theorem lookupPoll_save_self (l : List (String × Poll)) (pid : String) (p : Poll) :
    lookupPoll (pollsSave l pid p) pid = some p := by
  induction l with
  | nil => simp [pollsSave, lookupPoll]
  | cons kv rest ih =>
    obtain ⟨k, v⟩ := kv
    by_cases h1 : keyLt pid k
    · simp [pollsSave, h1, lookupPoll]
    · by_cases h2 : pid = k
      · subst h2; simp [pollsSave, keyLt_irrefl, lookupPoll]
      · simp [pollsSave, h1, h2, lookupPoll, Ne.symm h2, ih]

theorem lookupPoll_save_ne (l : List (String × Poll)) (pid q : String) (p : Poll)
    (h : q ≠ pid) : lookupPoll (pollsSave l pid p) q = lookupPoll l q := by
  induction l with
  | nil => simp [pollsSave, lookupPoll, Ne.symm h]
  | cons kv rest ih =>
    obtain ⟨k, v⟩ := kv
    by_cases h1 : keyLt pid k
    · simp [pollsSave, h1, lookupPoll, Ne.symm h]
    · by_cases h2 : pid = k
      · subst h2; simp [pollsSave, keyLt_irrefl, lookupPoll, Ne.symm h]
      · simp [pollsSave, h1, h2, lookupPoll, ih]

theorem lookupPoll_eq_none (l : List (String × Poll)) (pid : String) :
    lookupPoll l pid = none ↔ pid ∉ l.map Prod.fst := by
  induction l with
  | nil => simp [lookupPoll]
  | cons kv rest ih =>
    obtain ⟨k, v⟩ := kv
    by_cases h : k = pid
    · subst h; simp [lookupPoll]
    · rw [List.map_cons, List.mem_cons, not_or]
      simp [lookupPoll, h, ih, Ne.symm h]

theorem mem_of_lookupPoll (l : List (String × Poll)) (pid : String) (p : Poll)
    (h : lookupPoll l pid = some p) : pid ∈ l.map Prod.fst := by
  by_contra hc
  rw [← lookupPoll_eq_none] at hc
  rw [h] at hc
  cases hc

theorem mem_keys_pollsSave (l : List (String × Poll)) (pid q : String) (p : Poll) :
    q ∈ (pollsSave l pid p).map Prod.fst ↔ q = pid ∨ q ∈ l.map Prod.fst := by
  induction l with
  | nil => simp [pollsSave]
  | cons kv rest ih =>
    obtain ⟨k, v⟩ := kv
    by_cases h1 : keyLt pid k
    · simp [pollsSave, h1]
    · by_cases h2 : pid = k
      · subst h2; simp [pollsSave, keyLt_irrefl]
      · simp [pollsSave, h1, h2, ih]; tauto

theorem pollsSave_sorted (l : List (String × Poll)) (pid : String) (p : Poll)
    (h : List.Sorted keyLt (l.map Prod.fst)) :
    List.Sorted keyLt ((pollsSave l pid p).map Prod.fst) := by
  induction l with
  | nil => simp [pollsSave]
  | cons kv rest ih =>
    obtain ⟨k, v⟩ := kv
    simp only [List.map_cons, List.sorted_cons] at h
    obtain ⟨hk, hrest⟩ := h
    by_cases h1 : keyLt pid k
    · simp only [pollsSave, h1, if_pos, List.map_cons, List.sorted_cons]
      refine ⟨?_, hk, hrest⟩
      intro b hb
      rcases List.mem_cons.mp hb with rfl | hb
      · exact h1
      · exact keyLt_trans h1 (hk b hb)
    · by_cases h2 : pid = k
      · subst h2
        have : pollsSave ((pid, v) :: rest) pid p = (pid, p) :: rest := by
          simp [pollsSave, keyLt_irrefl]
        rw [this]
        simp only [List.map_cons, List.sorted_cons]
        exact ⟨hk, hrest⟩
      · have hkp : keyLt k pid := keyLt_of_not_of_ne h1 h2
        have : pollsSave ((k, v) :: rest) pid p = (k, v) :: pollsSave rest pid p := by
          simp [pollsSave, h1, h2]
        rw [this]
        simp only [List.map_cons, List.sorted_cons]
        refine ⟨?_, ih hrest⟩
        intro b hb
        rcases (mem_keys_pollsSave rest pid b p).mp hb with rfl | hb
        · exact hkp
        · exact hk b hb

theorem pollsSave_lookup_eq (l : List (String × Poll)) (pid : String) (p : Poll)
    (hs : List.Sorted keyLt (l.map Prod.fst))
    (h : lookupPoll l pid = some p) : pollsSave l pid p = l := by
  induction l with
  | nil => simp [lookupPoll] at h
  | cons kv rest ih =>
    obtain ⟨k, v⟩ := kv
    simp only [List.map_cons, List.sorted_cons] at hs
    obtain ⟨hk, hrest⟩ := hs
    by_cases h2 : k = pid
    · subst h2
      simp only [lookupPoll, if_pos, Option.some.injEq, ite_true] at h
      subst h
      simp [pollsSave, keyLt_irrefl]
    · simp only [lookupPoll, h2, if_neg, not_false_iff, ite_false] at h
      have hmem := mem_of_lookupPoll rest pid p h
      have hkpid : keyLt k pid := hk pid hmem
      have h1 : ¬ keyLt pid k := fun hc => keyLt_asymm hc hkpid
      simp [pollsSave, h1, Ne.symm h2, ih hrest h]

/-! Facts about position, element update and option counts. -/

theorem position_eq_none (opts : List (String × Nat)) (lbl : String) :
    position opts lbl = none ↔ lbl ∉ opts.map Prod.fst := by
  induction opts with
  | nil => simp [position]
  | cons x rest ih =>
    obtain ⟨l, c⟩ := x
    by_cases h : l = lbl
    · subst h; simp [position]
    · rw [List.map_cons, List.mem_cons, not_or]
      simp [position, h, ih, Ne.symm h]

theorem position_decomp (opts : List (String × Nat)) (lbl : String) (i : Nat)
    (h : position opts lbl = some i) :
    ∃ pre c suf, opts = pre ++ (lbl, c) :: suf ∧ lbl ∉ pre.map Prod.fst ∧
      i = pre.length := by
  induction opts generalizing i with
  | nil => simp [position] at h
  | cons x rest ih =>
    obtain ⟨l, c0⟩ := x
    by_cases hl : l = lbl
    · subst hl
      simp only [position, if_pos, Option.some.injEq, ite_true] at h
      exact ⟨[], c0, rest, by simp, by simp, h.symm⟩
    · simp only [position, hl, ite_false, Option.map_eq_some'] at h
      obtain ⟨i', hi', rfl⟩ := h
      obtain ⟨pre, c1, suf, heq, hpre, hlen⟩ := ih i' hi'
      refine ⟨(l, c0) :: pre, c1, suf, by simp [heq], ?_, by simp [hlen]⟩
      rw [List.map_cons, List.mem_cons, not_or]
      exact ⟨Ne.symm hl, hpre⟩

theorem position_append (pre : List (String × Nat)) (lbl : String) (c : Nat)
    (suf : List (String × Nat)) (h : lbl ∉ pre.map Prod.fst) :
    position (pre ++ (lbl, c) :: suf) lbl = some pre.length := by
  induction pre with
  | nil => simp [position]
  | cons x rest ih =>
    obtain ⟨l, c0⟩ := x
    rw [List.map_cons, List.mem_cons, not_or] at h
    simp [position, Ne.symm h.1, ih h.2]

theorem modifyIdx_append (f : String × Nat → String × Nat)
    (pre : List (String × Nat)) (x : String × Nat) (suf : List (String × Nat)) :
    modifyIdx f pre.length (pre ++ x :: suf) = pre ++ f x :: suf := by
  induction pre with
  | nil => simp [modifyIdx]
  | cons y rest ih => simp [modifyIdx, ih]

theorem getElem_append_cons (pre : List (String × Nat)) (x : String × Nat)
    (suf : List (String × Nat)) : (pre ++ x :: suf)[pre.length]? = some x := by
  induction pre with
  | nil => simp
  | cons y rest ih => simpa using ih

theorem optCount_append_cons (pre : List (String × Nat)) (lbl : String) (c : Nat)
    (suf : List (String × Nat)) (h : lbl ∉ pre.map Prod.fst) :
    optCount (pre ++ (lbl, c) :: suf) lbl = c := by
  induction pre with
  | nil => simp [optCount]
  | cons x rest ih =>
    obtain ⟨l, c0⟩ := x
    rw [List.map_cons, List.mem_cons, not_or] at h
    simp [optCount, Ne.symm h.1, ih h.2]

theorem optCount_mem (opts : List (String × Nat)) (lbl : String)
    (h : lbl ∈ opts.map Prod.fst) : (lbl, optCount opts lbl) ∈ opts := by
  induction opts with
  | nil => simp at h
  | cons x rest ih =>
    obtain ⟨l, c⟩ := x
    by_cases hl : l = lbl
    · subst hl; simp [optCount]
    · rw [List.map_cons, List.mem_cons] at h
      rcases h with h | h
      · exact absurd h.symm hl
      · simp only [optCount, hl, ite_false]
        exact List.mem_cons_of_mem _ (ih h)

theorem optCount_eq_of_nodup (opts : List (String × Nat))
    (h : (opts.map Prod.fst).Nodup) (lc : String × Nat) (hmem : lc ∈ opts) :
    optCount opts lc.fst = lc.snd := by
  induction opts with
  | nil => simp at hmem
  | cons x rest ih =>
    obtain ⟨l, c⟩ := x
    rw [List.map_cons, List.nodup_cons] at h
    rcases List.mem_cons.mp hmem with rfl | hmem
    · simp [optCount]
    · have hne : l ≠ lc.fst := by
        intro e
        apply h.1
        rw [e]
        exact List.mem_map.mpr ⟨lc, hmem, rfl⟩
      simp [optCount, hne, ih h.2 hmem]

/-! Facts about bump, the first-occurrence count update. -/

theorem bump_of_position (g : Nat → Nat) (opts : List (String × Nat))
    (lbl : String) (i : Nat) (h : position opts lbl = some i) :
    modifyIdx (fun o => (o.fst, g o.snd)) i opts = bump g opts lbl := by
  induction opts generalizing i with
  | nil => simp [position] at h
  | cons x rest ih =>
    obtain ⟨l, c⟩ := x
    by_cases hl : l = lbl
    · subst hl
      simp only [position, if_pos, Option.some.injEq, ite_true] at h
      subst h
      simp [modifyIdx, bump]
    · simp only [position, hl, ite_false, Option.map_eq_some'] at h
      obtain ⟨i', hi', rfl⟩ := h
      simp [modifyIdx, bump, hl, ih i' hi']

theorem bump_labels (g : Nat → Nat) (opts : List (String × Nat)) (lbl : String) :
    (bump g opts lbl).map Prod.fst = opts.map Prod.fst := by
  induction opts with
  | nil => simp [bump]
  | cons x rest ih =>
    obtain ⟨l, c⟩ := x
    by_cases hl : l = lbl
    · simp [bump, hl]
    · simp [bump, hl, ih]

theorem optCount_bump_self (g : Nat → Nat) (opts : List (String × Nat))
    (lbl : String) (h : lbl ∈ opts.map Prod.fst) :
    optCount (bump g opts lbl) lbl = g (optCount opts lbl) := by
  induction opts with
  | nil => simp at h
  | cons x rest ih =>
    obtain ⟨l, c⟩ := x
    by_cases hl : l = lbl
    · simp [bump, hl, optCount]
    · rw [List.map_cons, List.mem_cons] at h
      rcases h with h | h
      · exact absurd h.symm hl
      · simp [bump, hl, optCount, ih h]

theorem optCount_bump_ne (g : Nat → Nat) (opts : List (String × Nat))
    (lbl lbl2 : String) (h : lbl2 ≠ lbl) :
    optCount (bump g opts lbl) lbl2 = optCount opts lbl2 := by
  induction opts with
  | nil => simp [bump]
  | cons x rest ih =>
    obtain ⟨l, c⟩ := x
    by_cases hl : l = lbl
    · subst hl; simp [bump, optCount, Ne.symm h]
    · by_cases hl2 : l = lbl2
      · subst hl2; simp [bump, hl, optCount]
      · simp [bump, hl, optCount, hl2, ih]

theorem sum_bump (g : Nat → Nat) (opts : List (String × Nat)) (lbl : String)
    (h : lbl ∈ opts.map Prod.fst) :
    ((bump g opts lbl).map Prod.snd).sum + optCount opts lbl
      = (opts.map Prod.snd).sum + g (optCount opts lbl) := by
  induction opts with
  | nil => simp at h
  | cons x rest ih =>
    obtain ⟨l, c⟩ := x
    by_cases hl : l = lbl
    · subst hl; simp [bump, optCount]; omega
    · rw [List.map_cons, List.mem_cons] at h
      rcases h with h | h
      · exact absurd h.symm hl
      · have := ih h
        simp only [bump, hl, ite_false, List.map_cons, List.sum_cons, optCount]
        omega

/-! Facts about BALLOTS lookup, write and counting. -/

theorem lookupBallot_eq_none (l : List ((String × String) × Ballot))
    (k : String × String) : lookupBallot l k = none ↔ k ∉ l.map Prod.fst := by
  induction l with
  | nil => simp [lookupBallot]
  | cons kv rest ih =>
    obtain ⟨k0, v⟩ := kv
    by_cases h : k0 = k
    · subst h; simp [lookupBallot]
    · rw [List.map_cons, List.mem_cons, not_or]
      simp [lookupBallot, h, ih, Ne.symm h]

theorem lookupBallot_decomp (l : List ((String × String) × Ballot))
    (k : String × String) (b : Ballot) (h : lookupBallot l k = some b) :
    ∃ l1 l2, l = l1 ++ (k, b) :: l2 ∧ k ∉ l1.map Prod.fst := by
  induction l with
  | nil => simp [lookupBallot] at h
  | cons kv rest ih =>
    obtain ⟨k0, v⟩ := kv
    by_cases hk : k0 = k
    · subst hk
      simp only [lookupBallot, if_pos, Option.some.injEq, ite_true] at h
      exact ⟨[], rest, by simp [h], by simp⟩
    · simp only [lookupBallot, hk, ite_false] at h
      obtain ⟨l1, l2, heq, hpre⟩ := ih h
      refine ⟨(k0, v) :: l1, l2, by simp [heq], ?_⟩
      rw [List.map_cons, List.mem_cons, not_or]
      exact ⟨Ne.symm hk, hpre⟩

theorem ballotsPut_append (l : List ((String × String) × Ballot))
    (k : String × String) (b : Ballot) (h : k ∉ l.map Prod.fst) :
    ballotsPut l k b = l ++ [(k, b)] := by
  induction l with
  | nil => simp [ballotsPut]
  | cons kv rest ih =>
    obtain ⟨k0, v⟩ := kv
    rw [List.map_cons, List.mem_cons, not_or] at h
    simp [ballotsPut, Ne.symm h.1, ih h.2]

theorem ballotsPut_decomp (l1 l2 : List ((String × String) × Ballot))
    (k : String × String) (b0 b : Ballot) (h : k ∉ l1.map Prod.fst) :
    ballotsPut (l1 ++ (k, b0) :: l2) k b = l1 ++ (k, b) :: l2 := by
  induction l1 with
  | nil => simp [ballotsPut]
  | cons kv rest ih =>
    obtain ⟨k0, v⟩ := kv
    rw [List.map_cons, List.mem_cons, not_or] at h
    simp [ballotsPut, Ne.symm h.1, ih h.2]

theorem lookupBallot_put_self (l : List ((String × String) × Ballot))
    (k : String × String) (b : Ballot) :
    lookupBallot (ballotsPut l k b) k = some b := by
  induction l with
  | nil => simp [ballotsPut, lookupBallot]
  | cons kv rest ih =>
    obtain ⟨k0, v⟩ := kv
    by_cases h : k0 = k
    · subst h; simp [ballotsPut, lookupBallot]
    · simp [ballotsPut, h, lookupBallot, ih]

theorem ballotsPut_lookup_eq (l : List ((String × String) × Ballot))
    (k : String × String) (b : Ballot) (h : lookupBallot l k = some b) :
    ballotsPut l k b = l := by
  induction l with
  | nil => simp [lookupBallot] at h
  | cons kv rest ih =>
    obtain ⟨k0, v⟩ := kv
    by_cases hk : k0 = k
    · subst hk
      simp only [lookupBallot, if_pos, Option.some.injEq, ite_true] at h
      simp [ballotsPut, h]
    · simp only [lookupBallot, hk, ite_false] at h
      simp [ballotsPut, hk, ih h]

theorem ballotCount_append (l1 l2 : List ((String × String) × Ballot))
    (pid lbl : String) :
    ballotCount (l1 ++ l2) pid lbl = ballotCount l1 pid lbl + ballotCount l2 pid lbl :=
  List.countP_append _ _ _

theorem ballotCount_cons (kv : (String × String) × Ballot)
    (l : List ((String × String) × Ballot)) (pid lbl : String) :
    ballotCount (kv :: l) pid lbl = ballotCount l pid lbl +
      (if kv.fst.snd = pid ∧ kv.snd.option = lbl then 1 else 0) := by
  by_cases h1 : kv.fst.snd = pid <;> by_cases h2 : kv.snd.option = lbl <;>
    simp [ballotCount, List.countP_cons, isBallotFor, h1, h2]

theorem numBallots_append (l1 l2 : List ((String × String) × Ballot)) (pid : String) :
    numBallots (l1 ++ l2) pid = numBallots l1 pid + numBallots l2 pid :=
  List.countP_append _ _ _

theorem numBallots_cons (kv : (String × String) × Ballot)
    (l : List ((String × String) × Ballot)) (pid : String) :
    numBallots (kv :: l) pid = numBallots l pid +
      (if kv.fst.snd = pid then 1 else 0) := by
  by_cases h1 : kv.fst.snd = pid <;> simp [numBallots, List.countP_cons, isForPoll, h1]

theorem map_fst_zero (opts : List String) :
    (opts.map (fun o => (o, (0 : Nat)))).map Prod.fst = opts := by
  induction opts with
  | nil => rfl
  | cons o rest ih => simp [ih]

theorem ballotCount_nil (pid lbl : String) : ballotCount [] pid lbl = 0 := rfl

theorem numBallots_nil (pid : String) : numBallots [] pid = 0 := rfl

theorem ballotCount_eq_zero (l : List ((String × String) × Ballot)) (pid lbl : String)
    (h : ∀ kv ∈ l, kv.fst.snd ≠ pid) : ballotCount l pid lbl = 0 := by
  induction l with
  | nil => simp [ballotCount]
  | cons kv rest ih =>
    rw [ballotCount_cons]
    have h1 := h kv (List.mem_cons_self kv rest)
    simp only [h1, false_and, if_neg, ite_false, Nat.add_zero, not_false_iff]
    exact ih fun kv2 hm => h kv2 (List.mem_cons_of_mem _ hm)

theorem ballotCount_pos (l : List ((String × String) × Ballot)) (pid lbl : String)
    (kv : (String × String) × Ballot) (hmem : kv ∈ l)
    (h1 : kv.fst.snd = pid) (h2 : kv.snd.option = lbl) :
    0 < ballotCount l pid lbl := by
  rw [ballotCount]
  exact List.countP_pos_iff.mpr ⟨kv, hmem, by simp [isBallotFor, h1, h2]⟩

/-! Characterizations of the execute entry points. -/

theorem execute_create_poll_ok (s : State) (sender pid q : String)
    (opts : List String) (s1 : State)
    (hok : execute_create_poll s sender pid q opts = .ok s1) :
    opts.length ≤ 5 ∧
      s1 = ⟨pollsSave s.polls pid ⟨sender, q, opts.map (fun o => (o, 0))⟩,
            s.ballots⟩ := by
  unfold execute_create_poll at hok
  by_cases h : opts.length > 5
  · simp [h] at hok
  · simp only [h, if_neg, ite_false, not_false_iff, ExecResult.ok.injEq] at hok
    exact ⟨by omega, hok.symm⟩

theorem execute_vote_ok (s : State) (sender pid choice : String) (s1 : State)
    (hok : execute_vote s sender pid choice = .ok s1) :
    ∃ poll, lookupPoll s.polls pid = some poll ∧
      ((lookupBallot s.ballots (sender, pid) = none ∧
         choice ∈ labelsOf poll ∧
         s1 = ⟨pollsSave s.polls pid
                 ⟨poll.creator, poll.question,
                   bump (fun c => c + 1) poll.options choice⟩,
               ballotsPut s.ballots (sender, pid) ⟨choice⟩⟩) ∨
       (∃ oldB, lookupBallot s.ballots (sender, pid) = some oldB ∧
         oldB.option ∈ labelsOf poll ∧ optCount poll.options oldB.option ≠ 0 ∧
         choice ∈ labelsOf poll ∧
         s1 = ⟨pollsSave s.polls pid
                 ⟨poll.creator, poll.question,
                   bump (fun c => c + 1)
                     (bump (fun c => c - 1) poll.options oldB.option) choice⟩,
               ballotsPut s.ballots (sender, pid) ⟨choice⟩⟩)) := by
  unfold execute_vote at hok
  cases hpoll : lookupPoll s.polls pid with
  | none =>
    simp only [hpoll] at hok
    cases hok
  | some poll =>
    simp only [hpoll] at hok
    refine ⟨poll, rfl, ?_⟩
    cases hball : lookupBallot s.ballots (sender, pid) with
    | none =>
      simp only [hball] at hok
      unfold finishVote at hok
      cases hpos : position poll.options choice with
      | none =>
        simp only [hpos] at hok
        cases hok
      | some j =>
        simp only [hpos, ExecResult.ok.injEq] at hok
        left
        have hmem : choice ∈ labelsOf poll := by
          rw [labelsOf]
          by_contra hcm
          rw [← position_eq_none] at hcm
          rw [hpos] at hcm
          cases hcm
        have hb := bump_of_position (fun c => c + 1) poll.options choice j hpos
        rw [hb] at hok
        exact ⟨rfl, hmem, hok.symm⟩
    | some oldB =>
      simp only [hball] at hok
      cases hpos : position poll.options oldB.option with
      | none =>
        simp only [hpos] at hok
        cases hok
      | some i =>
        simp only [hpos] at hok
        obtain ⟨pre, c, suf, heq, hpre, hlen⟩ :=
          position_decomp poll.options oldB.option i hpos
        have hget : poll.options[i]? = some (oldB.option, c) := by
          rw [heq, hlen]
          exact getElem_append_cons pre (oldB.option, c) suf
        simp only [hget] at hok
        by_cases hc : c = 0
        · simp [hc] at hok
        · simp only [hc, if_neg, ite_false, not_false_iff] at hok
          have hbd := bump_of_position (fun c => c - 1) poll.options oldB.option i hpos
          rw [hbd] at hok
          unfold finishVote at hok
          simp only at hok
          cases hpos2 : position (bump (fun c => c - 1) poll.options oldB.option) choice with
          | none =>
            simp only [hpos2] at hok
            cases hok
          | some j =>
            simp only [hpos2, ExecResult.ok.injEq] at hok
            right
            have hmemA : oldB.option ∈ labelsOf poll := by
              rw [labelsOf, heq]
              simp
            have hcnt : optCount poll.options oldB.option = c := by
              rw [heq]
              exact optCount_append_cons pre oldB.option c suf hpre
            have hmemC : choice ∈ labelsOf poll := by
              rw [labelsOf]
              by_contra hcm
              have h2 : choice ∉ (bump (fun c => c - 1) poll.options oldB.option).map Prod.fst := by
                rw [bump_labels]
                exact hcm
              rw [← position_eq_none] at h2
              rw [hpos2] at h2
              cases h2
            have hb2 := bump_of_position (fun c => c + 1)
              (bump (fun c => c - 1) poll.options oldB.option) choice j hpos2
            rw [hb2] at hok
            exact ⟨oldB, rfl, hmemA, by rw [hcnt]; exact hc, hmemC, hok.symm⟩

/-! Preservation of the inductive invariant. -/

theorem tally_optCount (s : State) (hT : TallyInv s) (pid : String) (poll : Poll)
    (hpoll : lookupPoll s.polls pid = some poll) (lbl : String)
    (h : lbl ∈ poll.options.map Prod.fst) :
    optCount poll.options lbl = ballotCount s.ballots pid lbl :=
  hT pid poll hpoll (lbl, optCount poll.options lbl) (optCount_mem _ _ h)

theorem create_preserves_inv (s : State) (sender pid q : String)
    (opts : List String) (s1 : State) (hinv : Inv s)
    (hfresh : lookupPoll s.polls pid = none) (hnd : opts.Nodup)
    (hok : execute_create_poll s sender pid q opts = .ok s1) : Inv s1 := by
  obtain ⟨hT, hB, hN, hS⟩ := hinv
  obtain ⟨hlen, hs1⟩ := execute_create_poll_ok s sender pid q opts s1 hok
  set np : Poll := ⟨sender, q, opts.map (fun o => (o, 0))⟩ with hnp
  have hp1 : s1.polls = pollsSave s.polls pid np := by rw [hs1]
  have hb1 : s1.ballots = s.ballots := by rw [hs1]
  have hlabels : np.options.map Prod.fst = opts := by
    rw [hnp]
    exact map_fst_zero opts
  refine ⟨?_, ?_, ?_, ?_⟩
  · intro pid2 poll2 hlk lc hmem
    rw [hp1] at hlk
    rw [hb1]
    by_cases hp : pid2 = pid
    · subst hp
      rw [lookupPoll_save_self] at hlk
      injection hlk with hlk
      subst hlk
      have hzero : ballotCount s.ballots pid2 lc.fst = 0 := by
        apply ballotCount_eq_zero
        intro kv hkv he
        obtain ⟨poll3, hlk3, _⟩ := hB kv hkv
        rw [he, hfresh] at hlk3
        cases hlk3
      rw [hzero]
      have : lc ∈ opts.map (fun o => (o, 0)) := by
        have hno : np.options = opts.map (fun o => (o, 0)) := by rw [hnp]
        rwa [hno] at hmem
      obtain ⟨o, _, rfl⟩ := List.mem_map.mp this
      rfl
    · rw [lookupPoll_save_ne _ _ _ _ hp] at hlk
      exact hT pid2 poll2 hlk lc hmem
  · intro kv hkv
    rw [hb1] at hkv
    obtain ⟨poll2, hlk2, hopt⟩ := hB kv hkv
    have hne : kv.fst.snd ≠ pid := by
      intro e
      rw [e, hfresh] at hlk2
      cases hlk2
    refine ⟨poll2, ?_, hopt⟩
    rw [hp1, lookupPoll_save_ne _ _ _ _ hne]
    exact hlk2
  · intro pid2 poll2 hlk
    rw [hp1] at hlk
    by_cases hp : pid2 = pid
    · subst hp
      rw [lookupPoll_save_self] at hlk
      injection hlk with hlk
      subst hlk
      rw [labelsOf, hlabels]
      exact hnd
    · rw [lookupPoll_save_ne _ _ _ _ hp] at hlk
      exact hN pid2 poll2 hlk
  · unfold PollsSorted
    rw [hp1]
    exact pollsSave_sorted _ _ _ hS

theorem vote_preserves_inv (s : State) (sender pid choice : String) (s1 : State)
    (hinv : Inv s) (hok : execute_vote s sender pid choice = .ok s1) : Inv s1 := by
  obtain ⟨hT, hB, hN, hS⟩ := hinv
  obtain ⟨poll, hpoll, hcase⟩ := execute_vote_ok s sender pid choice s1 hok
  have hNpoll : (poll.options.map Prod.fst).Nodup := by
    have := hN pid poll hpoll
    rwa [labelsOf] at this
  rcases hcase with ⟨hball, hmemC, hs1⟩ | ⟨oldB, hball, hmemA, hcnt, hmemC, hs1⟩
  · -- first vote by this account in this poll
    rw [labelsOf] at hmemC
    set np : Poll := ⟨poll.creator, poll.question,
      bump (fun c => c + 1) poll.options choice⟩ with hnp
    have hno : np.options = bump (fun c => c + 1) poll.options choice := by rw [hnp]
    have hp1 : s1.polls = pollsSave s.polls pid np := by rw [hs1]
    have hb1 : s1.ballots = s.ballots ++ [((sender, pid), ⟨choice⟩)] := by
      rw [hs1]
      exact ballotsPut_append _ _ _ ((lookupBallot_eq_none _ _).mp hball)
    have hlnp : labelsOf np = poll.options.map Prod.fst := by
      rw [labelsOf, hno, bump_labels]
    refine ⟨?_, ?_, ?_, ?_⟩
    · intro pid2 poll2 hlk lc hmem
      rw [hp1] at hlk
      rw [hb1, ballotCount_append]
      by_cases hp : pid2 = pid
      · subst hp
        rw [lookupPoll_save_self] at hlk
        injection hlk with hlk
        subst hlk
        rw [hno] at hmem
        have hnd2 : ((bump (fun c => c + 1) poll.options choice).map Prod.fst).Nodup := by
          rw [bump_labels]
          exact hNpoll
        have hoc := optCount_eq_of_nodup _ hnd2 lc hmem
        rw [← hoc]
        by_cases hx : lc.fst = choice
        · rw [hx]
          rw [optCount_bump_self _ _ _ hmemC]
          rw [tally_optCount s hT pid2 poll hpoll choice hmemC]
          have hone : ballotCount [((sender, pid2), (⟨choice⟩ : Ballot))] pid2 choice = 1 := by
            rw [ballotCount_cons, ballotCount_nil]
            simp
          rw [hone]
        · rw [optCount_bump_ne _ _ _ _ hx]
          have hxm : lc.fst ∈ poll.options.map Prod.fst := by
            have : lc.fst ∈ (bump (fun c => c + 1) poll.options choice).map Prod.fst :=
              List.mem_map.mpr ⟨lc, hmem, rfl⟩
            rwa [bump_labels] at this
          rw [tally_optCount s hT pid2 poll hpoll lc.fst hxm]
          have hzero : ballotCount [((sender, pid2), (⟨choice⟩ : Ballot))] pid2 lc.fst = 0 := by
            rw [ballotCount_cons, ballotCount_nil]
            simp [Ne.symm hx]
          rw [hzero]
          omega
      · rw [lookupPoll_save_ne _ _ _ _ hp] at hlk
        have holdc := hT pid2 poll2 hlk lc hmem
        have hz : ballotCount [((sender, pid), (⟨choice⟩ : Ballot))] pid2 lc.fst = 0 := by
          rw [ballotCount_cons, ballotCount_nil]
          simp [Ne.symm hp]
        rw [hz, holdc]
        omega
    · intro kv hkv
      rw [hb1] at hkv
      rcases List.mem_append.mp hkv with hkv | hkv
      · obtain ⟨poll2, hlk2, hopt⟩ := hB kv hkv
        by_cases hp : kv.fst.snd = pid
        · have hpoll2 : poll2 = poll := by
            rw [hp] at hlk2
            rw [hlk2] at hpoll
            exact Option.some.inj hpoll
          refine ⟨np, ?_, ?_⟩
          · rw [hp1, hp]
            exact lookupPoll_save_self _ _ _
          · rw [hlnp, ← labelsOf]
            rw [hpoll2] at hopt
            exact hopt
        · refine ⟨poll2, ?_, hopt⟩
          rw [hp1, lookupPoll_save_ne _ _ _ _ hp]
          exact hlk2
      · have hkv2 : kv = ((sender, pid), ⟨choice⟩) := by simpa using hkv
        subst hkv2
        refine ⟨np, ?_, ?_⟩
        · rw [hp1]
          exact lookupPoll_save_self _ _ _
        · rw [hlnp]
          exact hmemC
    · intro pid2 poll2 hlk
      rw [hp1] at hlk
      by_cases hp : pid2 = pid
      · subst hp
        rw [lookupPoll_save_self] at hlk
        injection hlk with hlk
        subst hlk
        rw [labelsOf, hno, bump_labels]
        exact hNpoll
      · rw [lookupPoll_save_ne _ _ _ _ hp] at hlk
        exact hN pid2 poll2 hlk
    · unfold PollsSorted
      rw [hp1]
      exact pollsSave_sorted _ _ _ hS
  · -- revote: the account already holds a ballot in this poll
    rw [labelsOf] at hmemC hmemA
    obtain ⟨l1, l2, holdb, hker⟩ := lookupBallot_decomp s.ballots (sender, pid) oldB hball
    set np : Poll := ⟨poll.creator, poll.question,
      bump (fun c => c + 1)
        (bump (fun c => c - 1) poll.options oldB.option) choice⟩ with hnp
    have hno : np.options = bump (fun c => c + 1)
        (bump (fun c => c - 1) poll.options oldB.option) choice := by rw [hnp]
    have hp1 : s1.polls = pollsSave s.polls pid np := by rw [hs1]
    have hb1 : s1.ballots = l1 ++ ((sender, pid), (⟨choice⟩ : Ballot)) :: l2 := by
      rw [hs1, holdb]
      exact ballotsPut_decomp l1 l2 _ oldB ⟨choice⟩ hker
    have hlnp : labelsOf np = poll.options.map Prod.fst := by
      rw [labelsOf, hno, bump_labels, bump_labels]
    have hmemA1 : oldB.option ∈ (bump (fun c => c - 1) poll.options oldB.option).map Prod.fst := by
      rw [bump_labels]
      exact hmemA
    have hmemC1 : choice ∈ (bump (fun c => c - 1) poll.options oldB.option).map Prod.fst := by
      rw [bump_labels]
      exact hmemC
    -- old tally at the previous choice, as an explicit sum over the split ledger
    have hoA : optCount poll.options oldB.option
        = ballotCount l1 pid oldB.option + ballotCount l2 pid oldB.option + 1 := by
      rw [tally_optCount s hT pid poll hpoll oldB.option hmemA, holdb,
        ballotCount_append, ballotCount_cons]
      simp
      omega
    refine ⟨?_, ?_, ?_, ?_⟩
    · intro pid2 poll2 hlk lc hmem
      rw [hp1] at hlk
      rw [hb1, ballotCount_append, ballotCount_cons]
      by_cases hp : pid2 = pid
      · subst hp
        rw [lookupPoll_save_self] at hlk
        injection hlk with hlk
        subst hlk
        rw [hno] at hmem
        have hnd2 : ((bump (fun c => c + 1)
            (bump (fun c => c - 1) poll.options oldB.option) choice).map Prod.fst).Nodup := by
          rw [bump_labels, bump_labels]
          exact hNpoll
        have hoc := optCount_eq_of_nodup _ hnd2 lc hmem
        rw [← hoc]
        by_cases hx : lc.fst = choice
        · rw [hx]
          rw [optCount_bump_self _ _ _ hmemC1]
          by_cases hxa : choice = oldB.option
          · rw [hxa]
            rw [optCount_bump_self _ _ _ hmemA]
            rw [hoA]
            simp
            omega
          · rw [optCount_bump_ne _ _ _ _ hxa]
            rw [tally_optCount s hT pid2 poll hpoll choice hmemC, holdb,
              ballotCount_append, ballotCount_cons]
            have hxa2 : oldB.option ≠ choice := Ne.symm hxa
            simp [hxa2]
            omega
        · rw [optCount_bump_ne _ _ _ _ hx]
          have hxm : lc.fst ∈ poll.options.map Prod.fst := by
            have : lc.fst ∈ ((bump (fun c => c + 1)
                (bump (fun c => c - 1) poll.options oldB.option) choice).map Prod.fst) :=
              List.mem_map.mpr ⟨lc, hmem, rfl⟩
            rwa [bump_labels, bump_labels] at this
          by_cases hxa : lc.fst = oldB.option
          · rw [hxa]
            rw [optCount_bump_self _ _ _ hmemA]
            rw [hoA]
            rw [hxa] at hx
            simp [Ne.symm hx]
          · rw [optCount_bump_ne _ _ _ _ hxa]
            rw [tally_optCount s hT pid2 poll hpoll lc.fst hxm, holdb,
              ballotCount_append, ballotCount_cons]
            simp [Ne.symm hx, Ne.symm hxa]
      · rw [lookupPoll_save_ne _ _ _ _ hp] at hlk
        have holdinv := hT pid2 poll2 hlk lc hmem
        rw [holdinv, holdb, ballotCount_append, ballotCount_cons]
        simp [Ne.symm hp]
    · intro kv hkv
      rw [hb1] at hkv
      have hmem2 : kv ∈ s.ballots ∨ kv = ((sender, pid), (⟨choice⟩ : Ballot)) := by
        rw [holdb]
        rcases List.mem_append.mp hkv with h | h
        · exact Or.inl (List.mem_append.mpr (Or.inl h))
        · rcases List.mem_cons.mp h with h | h
          · exact Or.inr h
          · exact Or.inl (List.mem_append.mpr (Or.inr (List.mem_cons_of_mem _ h)))
      rcases hmem2 with hkv2 | hkv2
      · obtain ⟨poll2, hlk2, hopt⟩ := hB kv hkv2
        by_cases hp : kv.fst.snd = pid
        · have hpoll2 : poll2 = poll := by
            rw [hp] at hlk2
            rw [hlk2] at hpoll
            exact Option.some.inj hpoll
          refine ⟨np, ?_, ?_⟩
          · rw [hp1, hp]
            exact lookupPoll_save_self _ _ _
          · rw [hlnp, ← labelsOf]
            rw [hpoll2] at hopt
            exact hopt
        · refine ⟨poll2, ?_, hopt⟩
          rw [hp1, lookupPoll_save_ne _ _ _ _ hp]
          exact hlk2
      · subst hkv2
        refine ⟨np, ?_, ?_⟩
        · rw [hp1]
          exact lookupPoll_save_self _ _ _
        · rw [hlnp]
          exact hmemC
    · intro pid2 poll2 hlk
      rw [hp1] at hlk
      by_cases hp : pid2 = pid
      · subst hp
        rw [lookupPoll_save_self] at hlk
        injection hlk with hlk
        subst hlk
        rw [labelsOf, hno, bump_labels, bump_labels]
        exact hNpoll
      · rw [lookupPoll_save_ne _ _ _ _ hp] at hlk
        exact hN pid2 poll2 hlk
    · unfold PollsSorted
      rw [hp1]
      exact pollsSave_sorted _ _ _ hS

theorem reachable_inv (s : State) (h : Reachable s) : Inv s := by
  induction h with
  | init =>
    refine ⟨?_, ?_, ?_, ?_⟩
    · intro pid poll hlk
      simp [initState, lookupPoll] at hlk
    · intro kv hkv
      simp [initState] at hkv
    · intro pid poll hlk
      simp [initState, lookupPoll] at hlk
    · unfold PollsSorted
      simp [initState]
  | create s s1 sender pid q opts _ hfresh hnd hok ih =>
    exact create_preserves_inv s sender pid q opts s1 ih hfresh hnd hok
  | vote s s1 sender pid choice _ hok ih =>
    exact vote_preserves_inv s sender pid choice s1 ih hok

/-! Error cases of the execute entry points, and per-step effect on POLLS. -/

theorem execute_create_poll_err (s : State) (sender pid q : String)
    (opts : List String) (e : ContractError) (s1 : State)
    (h : execute_create_poll s sender pid q opts = .err e s1) :
    s1 = s ∧ opts.length > 5 := by
  unfold execute_create_poll at h
  by_cases hlen : opts.length > 5
  · rw [if_pos hlen] at h
    injection h with h1 h2
    exact ⟨h2.symm, hlen⟩
  · rw [if_neg hlen] at h
    cases h

theorem execute_vote_err (s : State) (sender pid choice : String)
    (e : ContractError) (s1 : State)
    (h : execute_vote s sender pid choice = .err e s1) : s1.polls = s.polls := by
  unfold execute_vote at h
  cases hpoll : lookupPoll s.polls pid with
  | none =>
    simp only [hpoll] at h
    injection h with h1 h2
    rw [← h2]
  | some poll =>
    simp only [hpoll] at h
    cases hball : lookupBallot s.ballots (sender, pid) with
    | none =>
      simp only [hball] at h
      unfold finishVote at h
      cases hpos : position poll.options choice with
      | none =>
        simp only [hpos] at h
        injection h with h1 h2
        rw [← h2]
      | some j =>
        simp only [hpos] at h
        cases h
    | some oldB =>
      simp only [hball] at h
      cases hpos : position poll.options oldB.option with
      | none =>
        simp only [hpos] at h
        cases h
      | some i =>
        simp only [hpos] at h
        cases hget : poll.options[i]? with
        | none =>
          simp only [hget] at h
          cases h
        | some lc =>
          simp only [hget] at h
          by_cases hc : lc.snd = 0
          · rw [if_pos hc] at h
            cases h
          · rw [if_neg hc] at h
            unfold finishVote at h
            simp only at h
            cases hpos2 : position (modifyIdx (fun o => (o.fst, o.snd - 1)) i poll.options) choice with
            | none =>
              simp only [hpos2] at h
              injection h with h1 h2
              rw [← h2]
            | some j =>
              simp only [hpos2] at h
              cases h

theorem stepState_cases (s : State) (op : Op) (s1 : State)
    (h : stepState s op = some s1) :
    applyOp s op = .ok s1 ∨ ∃ e, applyOp s op = .err e s1 := by
  unfold stepState at h
  cases ha : applyOp s op with
  | ok s2 =>
    simp only [ha] at h
    injection h with h
    subst h
    exact Or.inl rfl
  | err e s2 =>
    simp only [ha] at h
    injection h with h
    subst h
    exact Or.inr ⟨e, rfl⟩
  | fatal =>
    simp only [ha] at h
    cases h

theorem keys_pollsSave_toFinset (l : List (String × Poll)) (pid : String) (p : Poll) :
    ((pollsSave l pid p).map Prod.fst).toFinset
      = insert pid (l.map Prod.fst).toFinset := by
  ext q
  rw [List.mem_toFinset, Finset.mem_insert, List.mem_toFinset]
  exact mem_keys_pollsSave l pid q p

theorem step_polls (s : State) (op : Op) (s1 : State)
    (h : stepState s op = some s1) (hs : PollsSorted s) :
    PollsSorted s1 ∧
      (s1.polls.map Prod.fst).toFinset
        = (s.polls.map Prod.fst).toFinset ∪ (createdIds [op]).toFinset := by
  rcases stepState_cases s op s1 h with hap | ⟨e, hap⟩
  · cases op with
    | create sender pid q opts =>
      obtain ⟨hlen, hs1⟩ := execute_create_poll_ok s sender pid q opts s1 hap
      have hp1 : s1.polls = pollsSave s.polls pid ⟨sender, q, opts.map (fun o => (o, 0))⟩ := by
        rw [hs1]
      constructor
      · unfold PollsSorted
        rw [hp1]
        exact pollsSave_sorted _ _ _ hs
      · rw [hp1, keys_pollsSave_toFinset]
        have : createdIds [Op.create sender pid q opts] = [pid] := by
          simp [createdIds, hlen]
        rw [this]
        ext q2
        simp
        tauto
    | vote sender pid choice =>
      obtain ⟨poll, hpoll, hcase⟩ := execute_vote_ok s sender pid choice s1 hap
      have hp1 : ∃ np, s1.polls = pollsSave s.polls pid np := by
        rcases hcase with ⟨_, _, hs1⟩ | ⟨oldB, _, _, _, _, hs1⟩
        · exact ⟨_, by rw [hs1]⟩
        · exact ⟨_, by rw [hs1]⟩
      obtain ⟨np, hp1⟩ := hp1
      constructor
      · unfold PollsSorted
        rw [hp1]
        exact pollsSave_sorted _ _ _ hs
      · rw [hp1, keys_pollsSave_toFinset]
        have hmem : pid ∈ (s.polls.map Prod.fst).toFinset :=
          List.mem_toFinset.mpr (mem_of_lookupPoll _ _ _ hpoll)
        have : createdIds [Op.vote sender pid choice] = [] := by simp [createdIds]
        rw [this, Finset.insert_eq_self.mpr hmem]
        simp
  · cases op with
    | create sender pid q opts =>
      obtain ⟨hs1, hlen⟩ := execute_create_poll_err s sender pid q opts e s1 hap
      subst hs1
      refine ⟨hs, ?_⟩
      have : createdIds [Op.create sender pid q opts] = [] := by
        simp [createdIds]
        omega
      rw [this]
      simp
    | vote sender pid choice =>
      have hp1 := execute_vote_err s sender pid choice e s1 hap
      constructor
      · unfold PollsSorted
        rw [hp1]
        exact hs
      · rw [hp1]
        have : createdIds [Op.vote sender pid choice] = [] := by simp [createdIds]
        rw [this]
        simp

theorem runFrom_keys_sorted (ops : List Op) (s s1 : State)
    (h : runFrom s ops = some s1) (hs : PollsSorted s) :
    PollsSorted s1 ∧
      (s1.polls.map Prod.fst).toFinset
        = (s.polls.map Prod.fst).toFinset ∪ (createdIds ops).toFinset := by
  induction ops generalizing s with
  | nil =>
    unfold runFrom at h
    injection h with h
    subst h
    refine ⟨hs, ?_⟩
    simp [createdIds]
  | cons op rest ih =>
    unfold runFrom at h
    cases hstep : stepState s op with
    | none =>
      rw [hstep] at h
      cases h
    | some s2 =>
      rw [hstep] at h
      obtain ⟨hsort2, hkeys2⟩ := step_polls s op s2 hstep hs
      obtain ⟨hsort1, hkeys1⟩ := ih s2 h hsort2
      refine ⟨hsort1, ?_⟩
      rw [hkeys1, hkeys2]
      have hsplit : (createdIds (op :: rest)).toFinset
          = (createdIds [op]).toFinset ∪ (createdIds rest).toFinset := by
        cases op with
        | create sender pid q opts =>
          by_cases hlen : opts.length ≤ 5
          · simp [createdIds, hlen, Finset.insert_eq]
          · simp [createdIds, hlen]
        | vote sender pid choice => simp [createdIds]
      rw [hsplit, Finset.union_assoc]

/-! Sum of the per-option tallies versus the number of ballots of a poll. -/

theorem map_congr_mem {α β : Type} (l : List α) (f g : α → β)
    (h : ∀ a ∈ l, f a = g a) : l.map f = l.map g := by
  induction l with
  | nil => rfl
  | cons a rest ih =>
    rw [List.map_cons, List.map_cons, h a (List.mem_cons_self a rest),
      ih fun a2 hm => h a2 (List.mem_cons_of_mem _ hm)]

theorem sum_map_add (l : List String) (f g : String → Nat) :
    (l.map (fun x => f x + g x)).sum = (l.map f).sum + (l.map g).sum := by
  induction l with
  | nil => rfl
  | cons a rest ih =>
    simp [List.sum_cons, ih]
    omega

theorem sum_map_indicator (l : List String) (x : String) (hnd : l.Nodup) :
    (l.map (fun lbl => if x = lbl then 1 else 0)).sum = if x ∈ l then 1 else 0 := by
  induction l with
  | nil => simp
  | cons a rest ih =>
    rw [List.nodup_cons] at hnd
    by_cases hax : x = a
    · subst hax
      have hz : (rest.map (fun lbl => if x = lbl then 1 else 0)).sum = 0 := by
        rw [ih hnd.2]
        simp [hnd.1]
      simp [hz]
    · simp [hax, ih hnd.2]

theorem countP_partition (ballots : List ((String × String) × Ballot)) (pid : String)
    (labels : List String) (hnd : labels.Nodup)
    (hcover : ∀ kv ∈ ballots, kv.fst.snd = pid → kv.snd.option ∈ labels) :
    (labels.map (fun lbl => ballotCount ballots pid lbl)).sum
      = numBallots ballots pid := by
  induction ballots with
  | nil =>
    rw [numBallots_nil]
    have : labels.map (fun lbl => ballotCount [] pid lbl)
        = labels.map (fun _ => 0) := by
      apply map_congr_mem
      intro lbl _
      exact ballotCount_nil pid lbl
    rw [this]
    simp
  | cons kv rest ih =>
    rw [numBallots_cons]
    have hrest := ih fun kv2 hm hp => hcover kv2 (List.mem_cons_of_mem _ hm) hp
    have hmap : labels.map (fun lbl => ballotCount (kv :: rest) pid lbl)
        = labels.map (fun lbl => ballotCount rest pid lbl
            + (if kv.fst.snd = pid ∧ kv.snd.option = lbl then 1 else 0)) := by
      apply map_congr_mem
      intro lbl _
      exact ballotCount_cons kv rest pid lbl
    rw [hmap, sum_map_add, hrest]
    by_cases hkv : kv.fst.snd = pid
    · have hin : kv.snd.option ∈ labels := hcover kv (List.mem_cons_self _ _) hkv
      have hmap2 : labels.map (fun lbl =>
            if kv.fst.snd = pid ∧ kv.snd.option = lbl then 1 else 0)
          = labels.map (fun lbl => if kv.snd.option = lbl then 1 else 0) := by
        apply map_congr_mem
        intro lbl _
        simp [hkv]
      rw [hmap2, sum_map_indicator labels kv.snd.option hnd]
      simp [hin, hkv]
    · have hmap2 : labels.map (fun lbl =>
            if kv.fst.snd = pid ∧ kv.snd.option = lbl then 1 else 0)
          = labels.map (fun _ => 0) := by
        apply map_congr_mem
        intro lbl _
        simp [hkv]
      rw [hmap2]
      simp [hkv]

theorem sum_counts_of_inv (s : State) (hinv : Inv s) (pid : String) (poll : Poll)
    (hpoll : lookupPoll s.polls pid = some poll) :
    (poll.options.map Prod.snd).sum = numBallots s.ballots pid := by
  obtain ⟨hT, hB, hN, hS⟩ := hinv
  have h2 : poll.options.map Prod.snd
      = (poll.options.map Prod.fst).map (fun lbl => ballotCount s.ballots pid lbl) := by
    rw [List.map_map]
    apply map_congr_mem
    intro lc hmem
    exact hT pid poll hpoll lc hmem
  rw [h2]
  apply countP_partition
  · have := hN pid poll hpoll
    rwa [labelsOf] at this
  · intro kv hkv hp
    obtain ⟨poll2, hlk2, hopt⟩ := hB kv hkv
    rw [hp] at hlk2
    rw [hlk2] at hpoll
    have : poll2 = poll := Option.some.inj hpoll
    subst this
    rwa [labelsOf] at hopt

/-! The claims. -/

/-- C1 (counterexample): the tally invariant fails on states reached by
unrestricted operation sequences. An Unauthorized vote persists a ballot
without touching any count; re-creating an existing poll resets its counts
while its ballots remain; a poll created with duplicate labels tallies only
the first copy of the label. -/
theorem tally_invariant_counterexample :
    (runTrace [Op.create "c" "p" "q" ["A"], Op.vote "x" "p" "B"]
        = some ⟨[("p", ⟨"c", "q", [("A", 0)]⟩)], [(("x", "p"), ⟨"B"⟩)]⟩ ∧
      ¬ TallyProperty ⟨[("p", ⟨"c", "q", [("A", 0)]⟩)], [(("x", "p"), ⟨"B"⟩)]⟩) ∧
    (runTrace [Op.create "c" "p" "q" ["A"], Op.vote "x" "p" "A",
        Op.create "c" "p" "q" ["A"]]
        = some ⟨[("p", ⟨"c", "q", [("A", 0)]⟩)], [(("x", "p"), ⟨"A"⟩)]⟩ ∧
      ¬ TallyProperty ⟨[("p", ⟨"c", "q", [("A", 0)]⟩)], [(("x", "p"), ⟨"A"⟩)]⟩) ∧
    (runTrace [Op.create "c" "p" "q" ["A", "A"], Op.vote "x" "p" "A"]
        = some ⟨[("p", ⟨"c", "q", [("A", 1), ("A", 0)]⟩)], [(("x", "p"), ⟨"A"⟩)]⟩ ∧
      ¬ TallyProperty ⟨[("p", ⟨"c", "q", [("A", 1), ("A", 0)]⟩)], [(("x", "p"), ⟨"A"⟩)]⟩) := by
  refine ⟨⟨by decide, ?_⟩, ⟨by decide, ?_⟩, ⟨by decide, ?_⟩⟩
  · intro h
    exact absurd (h.2 "p" ⟨"c", "q", [("A", 0)]⟩ (by decide)) (by decide)
  · intro h
    exact absurd (h.1 "p" ⟨"c", "q", [("A", 0)]⟩ (by decide) ("A", 0) (by decide)) (by decide)
  · intro h
    exact absurd (h.1 "p" ⟨"c", "q", [("A", 1), ("A", 0)]⟩ (by decide) ("A", 0) (by decide))
      (by decide)

/-- C1 (amended): in every state reachable from the initialized storage by
successful create_poll and cast_vote operations, where each create_poll uses a
poll id with no existing poll and pairwise distinct option labels, every
stored option count equals the number of matching ballots, and every poll's
count sum equals the number of ballots naming that poll. -/
theorem tally_invariant_reachable (s : State) (h : Reachable s) : TallyProperty s := by
  have hinv := reachable_inv s h
  exact ⟨hinv.1, fun pid poll hpoll => sum_counts_of_inv s hinv pid poll hpoll⟩

/-- Witness for C1's amended theorem at a concrete reachable state. -/
theorem tally_invariant_reachable_witness :
    TallyProperty ⟨[("p", ⟨"c", "q", [("A", 1)]⟩)], [(("x", "p"), ⟨"A"⟩)]⟩ :=
  tally_invariant_reachable _
    (Reachable.vote ⟨[("p", ⟨"c", "q", [("A", 0)]⟩)], []⟩
      ⟨[("p", ⟨"c", "q", [("A", 1)]⟩)], [(("x", "p"), ⟨"A"⟩)]⟩ "x" "p" "A"
      (Reachable.create initState ⟨[("p", ⟨"c", "q", [("A", 0)]⟩)], []⟩
        "c" "p" "q" ["A"] Reachable.init (by decide) (by decide) (by decide))
      (by decide))

/-- C2: the code violates the claimed ballot-validity invariant: on a vote
naming a label absent from the poll, the Ballot is written to storage first
and the membership check only aborts afterwards, so a stored ballot can
reference a label absent from its poll. Concretely, voting "B" on a poll
whose only label is "A" returns Unauthorized yet leaves the ballot stored. -/
theorem ballot_validity_bug :
    execute_vote ⟨[("p", ⟨"c", "q", [("A", 0)]⟩)], []⟩ "x" "p" "B"
      = .err .unauthorized ⟨[("p", ⟨"c", "q", [("A", 0)]⟩)], [(("x", "p"), ⟨"B"⟩)]⟩ ∧
    ("B" ∉ labelsOf (⟨"c", "q", [("A", 0)]⟩ : Poll)) ∧
    lookupBallot [((("x" : String), ("p" : String)), (⟨"B"⟩ : Ballot))] ("x", "p")
      = some ⟨"B"⟩ :=
  ⟨by decide, by decide, by decide⟩

/-- C3 (counterexample): on a failed revote to an absent option, the stored
Poll is unchanged — the decrement was applied only to the in-memory copy and
never persisted, contrary to the claim that it reached the stored Poll. The
voter held a ballot for "A" with count 1; after the failed vote the stored
count is still 1, not 0, while the ballot was overwritten with "C". -/
theorem unauthorized_revote_counterexample :
    execute_vote ⟨[("p", ⟨"c", "q", [("A", 1)]⟩)], [(("x", "p"), ⟨"A"⟩)]⟩ "x" "p" "C"
      = .err .unauthorized
          ⟨[("p", ⟨"c", "q", [("A", 1)]⟩)], [(("x", "p"), ⟨"C"⟩)]⟩ ∧
    lookupPoll [("p", (⟨"c", "q", [("A", 1)]⟩ : Poll))] "p" = some ⟨"c", "q", [("A", 1)]⟩ :=
  ⟨by decide, by decide⟩

/-- C3 (amended): a cast_vote on an existing poll naming an option absent
from it fails with Unauthorized; in the failure state the new Ballot has
already been persisted with the invalid option value, while the stored POLLS
map is unchanged (the decrement of a prior ballot's option touched only the
in-memory Poll copy). The prior-ballot hypothesis keeps the decrement from
panicking. -/
theorem unauthorized_vote_state (s : State) (sender pid choice : String) (poll : Poll)
    (hpoll : lookupPoll s.polls pid = some poll)
    (hnot : choice ∉ labelsOf poll)
    (hprior : lookupBallot s.ballots (sender, pid) = none ∨
      ∃ oldB, lookupBallot s.ballots (sender, pid) = some oldB ∧
        oldB.option ∈ labelsOf poll ∧ optCount poll.options oldB.option ≠ 0) :
    execute_vote s sender pid choice
      = .err .unauthorized ⟨s.polls, ballotsPut s.ballots (sender, pid) ⟨choice⟩⟩ := by
  rw [labelsOf] at hnot
  rcases hprior with hball | ⟨oldB, hball, hmemA, hcnt⟩
  · unfold execute_vote
    simp only [hpoll, hball]
    unfold finishVote
    rw [(position_eq_none poll.options choice).mpr hnot]
  · rw [labelsOf] at hmemA
    cases hpos : position poll.options oldB.option with
    | none =>
      rw [position_eq_none] at hpos
      exact absurd hmemA hpos
    | some i =>
      obtain ⟨pre, c, suf, heq, hpre, hlen⟩ := position_decomp _ _ _ hpos
      have hget : poll.options[i]? = some (oldB.option, c) := by
        rw [heq, hlen]
        exact getElem_append_cons _ _ _
      have hoc : optCount poll.options oldB.option = c := by
        rw [heq]
        exact optCount_append_cons _ _ _ _ hpre
      have hc0 : ¬ c = 0 := by
        rw [← hoc]
        exact hcnt
      have hbd := bump_of_position (fun d => d - 1) poll.options oldB.option i hpos
      have hnot1 : choice ∉ (bump (fun d => d - 1) poll.options oldB.option).map Prod.fst := by
        rw [bump_labels]
        exact hnot
      unfold execute_vote
      simp only [hpoll, hball, hpos, hget]
      rw [if_neg hc0]
      unfold finishVote
      simp only [hbd]
      rw [(position_eq_none _ choice).mpr hnot1]

/-- Witness for C3's amended theorem on a concrete revote to an absent option. -/
theorem unauthorized_vote_state_witness :
    execute_vote ⟨[("p", ⟨"c", "q", [("A", 1)]⟩)], [(("x", "p"), ⟨"A"⟩)]⟩ "x" "p" "C"
      = .err .unauthorized ⟨[("p", (⟨"c", "q", [("A", 1)]⟩ : Poll))],
          ballotsPut [((("x" : String), ("p" : String)), (⟨"A"⟩ : Ballot))]
            ("x", "p") ⟨"C"⟩⟩ :=
  unauthorized_vote_state _ "x" "p" "C" ⟨"c", "q", [("A", 1)]⟩ (by decide) (by decide)
    (Or.inr ⟨⟨"A"⟩, by decide, by decide, by decide⟩)

/-- C5: a cast_vote whose poll id has no stored Poll fails with PollNotFound
and performs no writes: the resulting storage is exactly the prior storage. -/
theorem vote_poll_not_found (s : State) (sender pid choice : String)
    (h : lookupPoll s.polls pid = none) :
    execute_vote s sender pid choice = .err .pollNotFound s := by
  unfold execute_vote
  simp only [h]

/-- Witness for C5 on the initialized storage. -/
theorem vote_poll_not_found_witness :
    execute_vote initState "x" "p" "A" = .err .pollNotFound initState :=
  vote_poll_not_found initState "x" "p" "A" (by decide)

/-- C6: create_poll fails with TooManyOptions and leaves the storage
untouched when more than 5 options are supplied; with at most 5 it succeeds,
stores under the poll id a Poll with the caller's labels in caller order and
all counts 0 — overwriting any existing Poll under that id — and leaves every
other poll and all ballots unchanged. -/
theorem create_poll_spec (s : State) (sender pid q : String) (opts : List String) :
    (opts.length > 5 → execute_create_poll s sender pid q opts = .err .tooManyOptions s) ∧
    (opts.length ≤ 5 →
      execute_create_poll s sender pid q opts
          = .ok ⟨pollsSave s.polls pid ⟨sender, q, opts.map (fun o => (o, 0))⟩, s.ballots⟩ ∧
      lookupPoll (pollsSave s.polls pid ⟨sender, q, opts.map (fun o => (o, 0))⟩) pid
          = some ⟨sender, q, opts.map (fun o => (o, 0))⟩ ∧
      (∀ pid2, pid2 ≠ pid →
        lookupPoll (pollsSave s.polls pid ⟨sender, q, opts.map (fun o => (o, 0))⟩) pid2
          = lookupPoll s.polls pid2)) := by
  constructor
  · intro h
    unfold execute_create_poll
    rw [if_pos h]
  · intro h
    refine ⟨?_, lookupPoll_save_self _ _ _, fun pid2 h2 => lookupPoll_save_ne _ _ _ _ h2⟩
    unfold execute_create_poll
    rw [if_neg (by omega)]

/-- Witness for C6: six options are rejected without a write, five are
accepted and stored. -/
theorem create_poll_spec_witness :
    execute_create_poll initState "c" "p" "q" ["1", "2", "3", "4", "5", "6"]
        = .err .tooManyOptions initState ∧
    execute_create_poll initState "c" "p" "q" ["1", "2", "3", "4", "5"]
        = .ok ⟨pollsSave initState.polls "p"
            ⟨"c", "q", (["1", "2", "3", "4", "5"] : List String).map (fun o => (o, 0))⟩,
          initState.ballots⟩ :=
  ⟨(create_poll_spec initState "c" "p" "q" _).1 (by decide),
   ((create_poll_spec initState "c" "p" "q" _).2 (by decide)).1⟩

/-- C4: revote effect. In any state satisfying the tally invariant where
account X holds a ballot for label A in poll P, and A and B are both labels
of P with A distinct from B, voting B succeeds, A's count drops by exactly 1,
B's count rises by exactly 1, the sum of counts is unchanged, and the stored
vote of X in P is now B. -/
theorem revote_effect (s : State) (X P A B : String) (poll : Poll)
    (hT : TallyInv s)
    (hpoll : lookupPoll s.polls P = some poll)
    (hball : lookupBallot s.ballots (X, P) = some ⟨A⟩)
    (hA : A ∈ labelsOf poll) (hB : B ∈ labelsOf poll) (hAB : A ≠ B) :
    ∃ s1 poll1, execute_vote s X P B = .ok s1 ∧
      lookupPoll s1.polls P = some poll1 ∧
      optCount poll1.options A + 1 = optCount poll.options A ∧
      optCount poll1.options B = optCount poll.options B + 1 ∧
      (poll1.options.map Prod.snd).sum = (poll.options.map Prod.snd).sum ∧
      query_vote s1 X P = some ⟨B⟩ := by
  rw [labelsOf] at hA hB
  cases hpos : position poll.options A with
  | none =>
    rw [position_eq_none] at hpos
    exact absurd hA hpos
  | some i =>
    obtain ⟨pre, c, suf, heq, hpre, hlen⟩ := position_decomp _ _ _ hpos
    have hget : poll.options[i]? = some (A, c) := by
      rw [heq, hlen]
      exact getElem_append_cons _ _ _
    have hoc : optCount poll.options A = c := by
      rw [heq]
      exact optCount_append_cons _ _ _ _ hpre
    have hmem : ((X, P), (⟨A⟩ : Ballot)) ∈ s.ballots := by
      obtain ⟨l1, l2, hdec, _⟩ := lookupBallot_decomp _ _ _ hball
      rw [hdec]
      exact List.mem_append.mpr (Or.inr (List.mem_cons_self _ _))
    have hcpos : 0 < c := by
      rw [← hoc, tally_optCount s hT P poll hpoll A hA]
      exact ballotCount_pos _ _ _ _ hmem rfl rfl
    have hc0 : ¬ c = 0 := by omega
    have hbd := bump_of_position (fun d => d - 1) poll.options A i hpos
    have hBmem1 : B ∈ (bump (fun d => d - 1) poll.options A).map Prod.fst := by
      rw [bump_labels]
      exact hB
    cases hpos2 : position (bump (fun d => d - 1) poll.options A) B with
    | none =>
      rw [position_eq_none] at hpos2
      exact absurd hBmem1 hpos2
    | some j =>
      have hbi := bump_of_position (fun d => d + 1)
        (bump (fun d => d - 1) poll.options A) B j hpos2
      have hexec : execute_vote s X P B = .ok
          ⟨pollsSave s.polls P ⟨poll.creator, poll.question,
             bump (fun d => d + 1) (bump (fun d => d - 1) poll.options A) B⟩,
           ballotsPut s.ballots (X, P) ⟨B⟩⟩ := by
        unfold execute_vote
        simp only [hpoll, hball, hpos, hget]
        rw [if_neg hc0]
        unfold finishVote
        simp only [hbd, hpos2, hbi]
      refine ⟨_, ⟨poll.creator, poll.question,
        bump (fun d => d + 1) (bump (fun d => d - 1) poll.options A) B⟩,
        hexec, lookupPoll_save_self _ _ _, ?_, ?_, ?_, lookupBallot_put_self _ _ _⟩
      · rw [optCount_bump_ne _ _ _ _ hAB,
          optCount_bump_self _ _ _ hA, hoc]
        omega
      · rw [optCount_bump_self _ _ _ hBmem1,
          optCount_bump_ne _ _ _ _ (Ne.symm hAB)]
      · have h1 := sum_bump (fun d => d + 1)
          (bump (fun d => d - 1) poll.options A) B hBmem1
        have h2 := sum_bump (fun d => d - 1) poll.options A hA
        have h3 : optCount (bump (fun d => d - 1) poll.options A) B
            = optCount poll.options B := optCount_bump_ne _ _ _ _ (Ne.symm hAB)
        rw [h3] at h1
        rw [hoc] at h2
        simp only at h1 h2 ⊢
        omega

/-- Witness for C4 on a two-option poll with one recorded ballot. -/
theorem revote_effect_witness :
    ∃ s1 poll1, execute_vote ⟨[("p", ⟨"c", "q", [("A", 1), ("B", 0)]⟩)],
        [(("x", "p"), ⟨"A"⟩)]⟩ "x" "p" "B" = .ok s1 ∧
      lookupPoll s1.polls "p" = some poll1 ∧
      optCount poll1.options "A" + 1
        = optCount ([("A", 1), ("B", 0)] : List (String × Nat)) "A" ∧
      optCount poll1.options "B"
        = optCount ([("A", 1), ("B", 0)] : List (String × Nat)) "B" + 1 ∧
      (poll1.options.map Prod.snd).sum
        = (([("A", 1), ("B", 0)] : List (String × Nat)).map Prod.snd).sum ∧
      query_vote s1 "x" "p" = some ⟨"B"⟩ :=
  revote_effect _ "x" "p" "A" "B" ⟨"c", "q", [("A", 1), ("B", 0)]⟩
    (reachable_inv _
      (Reachable.vote ⟨[("p", ⟨"c", "q", [("A", 0), ("B", 0)]⟩)], []⟩
        ⟨[("p", ⟨"c", "q", [("A", 1), ("B", 0)]⟩)], [(("x", "p"), ⟨"A"⟩)]⟩ "x" "p" "A"
        (Reachable.create initState ⟨[("p", ⟨"c", "q", [("A", 0), ("B", 0)]⟩)], []⟩
          "c" "p" "q" ["A", "B"] Reachable.init (by decide) (by decide) (by decide))
        (by decide))).1
    (by decide) (by decide) (by decide) (by decide) (by decide)

/-- C7: after any trace of operations from the initialized storage, the all
polls query returns the stored polls in strictly ascending poll-id order, and
its length equals the number of distinct poll ids ever passed to a successful
create_poll. -/
theorem all_polls_ordered (ops : List Op) (s : State) (h : runTrace ops = some s) :
    List.Sorted keyLt (s.polls.map Prod.fst) ∧
    query_all_polls s = s.polls.map Prod.snd ∧
    (query_all_polls s).length = (createdIds ops).dedup.length := by
  have hinit : PollsSorted initState := by
    unfold PollsSorted
    simp [initState]
  obtain ⟨hsort, hkeys⟩ := runFrom_keys_sorted ops initState s h hinit
  refine ⟨hsort, rfl, ?_⟩
  have hnd : (s.polls.map Prod.fst).Nodup :=
    List.Pairwise.imp (fun hab => keyLt_ne hab) hsort
  have h1 : (query_all_polls s).length = (s.polls.map Prod.fst).length := by
    simp [query_all_polls]
  have h2 := List.toFinset_card_of_nodup hnd
  have h3 : (s.polls.map Prod.fst).toFinset = (createdIds ops).toFinset := by
    rw [hkeys]
    simp [initState]
  have h4 := List.card_toFinset (createdIds ops)
  rw [h1, ← h2, h3, h4]

/-- Witness for C7: two creates arriving in descending id order are returned
ascending, and the length matches the two distinct created ids. -/
theorem all_polls_ordered_witness :
    List.Sorted keyLt
      ((⟨[("001", ⟨"c", "q2", [("B", 0)]⟩), ("002", ⟨"c", "q1", [("A", 0)]⟩)], []⟩
        : State).polls.map Prod.fst) ∧
    query_all_polls ⟨[("001", ⟨"c", "q2", [("B", 0)]⟩), ("002", ⟨"c", "q1", [("A", 0)]⟩)], []⟩
      = ([("001", ⟨"c", "q2", [("B", 0)]⟩), ("002", ⟨"c", "q1", [("A", 0)]⟩)]
          : List (String × Poll)).map Prod.snd ∧
    (query_all_polls
        ⟨[("001", ⟨"c", "q2", [("B", 0)]⟩), ("002", ⟨"c", "q1", [("A", 0)]⟩)], []⟩).length
      = (createdIds [Op.create "c" "002" "q1" ["A"], Op.create "c" "001" "q2" ["B"]]).dedup.length :=
  all_polls_ordered [Op.create "c" "002" "q1" ["A"], Op.create "c" "001" "q2" ["B"]]
    ⟨[("001", ⟨"c", "q2", [("B", 0)]⟩), ("002", ⟨"c", "q1", [("A", 0)]⟩)], []⟩ (by decide)

/-- C8 (counterexample): create_poll accepts a duplicate label list and
stores it verbatim, so the stored poll's labels are not pairwise distinct. -/
theorem label_uniqueness_counterexample :
    execute_create_poll initState "c" "p" "q" ["A", "A"]
        = .ok ⟨[("p", ⟨"c", "q", [("A", 0), ("A", 0)]⟩)], []⟩ ∧
    ¬ (labelsOf (⟨"c", "q", [("A", 0), ("A", 0)]⟩ : Poll)).Nodup :=
  ⟨by decide, by decide⟩

/-- C8 (amended): create_poll enforces no label uniqueness: any options list
of at most 5 labels is accepted, and the stored poll's label sequence is the
caller's list verbatim, duplicates included. -/
theorem create_poll_labels_verbatim (s : State) (sender pid q : String)
    (opts : List String) (h : opts.length ≤ 5) :
    ∃ s1 poll, execute_create_poll s sender pid q opts = .ok s1 ∧
      lookupPoll s1.polls pid = some poll ∧ labelsOf poll = opts := by
  refine ⟨⟨pollsSave s.polls pid ⟨sender, q, opts.map (fun o => (o, 0))⟩, s.ballots⟩,
    ⟨sender, q, opts.map (fun o => (o, 0))⟩, ?_, ?_, ?_⟩
  · unfold execute_create_poll
    rw [if_neg (by omega)]
  · exact lookupPoll_save_self _ _ _
  · rw [labelsOf]
    exact map_fst_zero opts

/-- Witness for C8's amended theorem at a duplicate-label input. -/
theorem create_poll_labels_verbatim_witness :
    ∃ s1 poll, execute_create_poll initState "c" "p" "q" ["A", "A"] = .ok s1 ∧
      lookupPoll s1.polls "p" = some poll ∧ labelsOf poll = ["A", "A"] :=
  create_poll_labels_verbatim initState "c" "p" "q" ["A", "A"] (by decide)

/-- C9: revoting the same option is a storage no-op. In any state satisfying
the tally invariant whose POLLS list is sorted, if X holds a ballot for A in
poll P and A is a label of P, then voting A again succeeds and returns the
very same storage: every option count and the stored ballot keep their prior
values. -/
theorem revote_same_noop (s : State) (X P A : String) (poll : Poll)
    (hT : TallyInv s) (hS : PollsSorted s)
    (hpoll : lookupPoll s.polls P = some poll)
    (hball : lookupBallot s.ballots (X, P) = some ⟨A⟩)
    (hA : A ∈ labelsOf poll) :
    execute_vote s X P A = .ok s := by
  rw [labelsOf] at hA
  cases hpos : position poll.options A with
  | none =>
    rw [position_eq_none] at hpos
    exact absurd hA hpos
  | some i =>
    obtain ⟨pre, c, suf, heq, hpre, hlen⟩ := position_decomp _ _ _ hpos
    have hget : poll.options[i]? = some (A, c) := by
      rw [heq, hlen]
      exact getElem_append_cons _ _ _
    have hoc : optCount poll.options A = c := by
      rw [heq]
      exact optCount_append_cons _ _ _ _ hpre
    have hmem : ((X, P), (⟨A⟩ : Ballot)) ∈ s.ballots := by
      obtain ⟨l1, l2, hdec, _⟩ := lookupBallot_decomp _ _ _ hball
      rw [hdec]
      exact List.mem_append.mpr (Or.inr (List.mem_cons_self _ _))
    have hcpos : 0 < c := by
      rw [← hoc, tally_optCount s hT P poll hpoll A hA]
      exact ballotCount_pos _ _ _ _ hmem rfl rfl
    have hc0 : ¬ c = 0 := by omega
    have hdec1 : modifyIdx (fun o => (o.fst, o.snd - 1)) i poll.options
        = pre ++ (A, c - 1) :: suf := by
      rw [heq, hlen]
      exact modifyIdx_append _ _ _ _
    have hpos2 : position (pre ++ (A, c - 1) :: suf) A = some pre.length :=
      position_append _ _ _ _ hpre
    have hinc : modifyIdx (fun o => (o.fst, o.snd + 1)) pre.length
        (pre ++ (A, c - 1) :: suf) = pre ++ (A, c - 1 + 1) :: suf :=
      modifyIdx_append _ _ _ _
    have hc1 : c - 1 + 1 = c := by omega
    unfold execute_vote
    simp only [hpoll, hball, hpos, hget]
    rw [if_neg hc0]
    unfold finishVote
    simp only [hdec1, hpos2, hinc, hc1]
    rw [← heq]
    rw [ballotsPut_lookup_eq _ _ _ hball]
    rw [pollsSave_lookup_eq _ _ _ hS hpoll]

/-- Witness for C9 on a concrete one-ballot state. -/
theorem revote_same_noop_witness :
    execute_vote ⟨[("p", ⟨"c", "q", [("A", 1), ("B", 0)]⟩)],
        [(("x", "p"), ⟨"A"⟩)]⟩ "x" "p" "A"
      = .ok ⟨[("p", ⟨"c", "q", [("A", 1), ("B", 0)]⟩)], [(("x", "p"), ⟨"A"⟩)]⟩ :=
  revote_same_noop _ "x" "p" "A" ⟨"c", "q", [("A", 1), ("B", 0)]⟩
    (reachable_inv _
      (Reachable.vote ⟨[("p", ⟨"c", "q", [("A", 0), ("B", 0)]⟩)], []⟩
        ⟨[("p", ⟨"c", "q", [("A", 1), ("B", 0)]⟩)], [(("x", "p"), ⟨"A"⟩)]⟩ "x" "p" "A"
        (Reachable.create initState ⟨[("p", ⟨"c", "q", [("A", 0), ("B", 0)]⟩)], []⟩
          "c" "p" "q" ["A", "B"] Reachable.init (by decide) (by decide) (by decide))
        (by decide))).1
    (by unfold PollsSorted; simp) (by decide) (by decide) (by decide)

theorem finishVote_ne_fatal (s : State) (pid vote : String) (poll : Poll)
    (bl : List ((String × String) × Ballot)) :
    finishVote s pid vote poll bl ≠ .fatal := by
  unfold finishVote
  cases hpos : position poll.options vote <;> simp

/-- C10: in the revote branch, when the prior ballot's option is a label of
the poll whose first entry has count at least 1, neither the position unwrap
nor the checked decrement panics; when the prior option is absent the unwrap
panics, and when its count is 0 the decrement underflows and panics — the
defect case aborts instead of skipping the decrement. -/
theorem revote_branch_panics (s : State) (sender pid choice : String) (poll : Poll)
    (b : Ballot)
    (hpoll : lookupPoll s.polls pid = some poll)
    (hball : lookupBallot s.ballots (sender, pid) = some b) :
    (b.option ∈ labelsOf poll → optCount poll.options b.option ≠ 0 →
      execute_vote s sender pid choice ≠ .fatal) ∧
    (b.option ∉ labelsOf poll → execute_vote s sender pid choice = .fatal) ∧
    (b.option ∈ labelsOf poll → optCount poll.options b.option = 0 →
      execute_vote s sender pid choice = .fatal) := by
  refine ⟨?_, ?_, ?_⟩
  · intro hmem hcnt
    rw [labelsOf] at hmem
    cases hpos : position poll.options b.option with
    | none =>
      rw [position_eq_none] at hpos
      exact absurd hmem hpos
    | some i =>
      obtain ⟨pre, c, suf, heq, hpre, hlen⟩ := position_decomp _ _ _ hpos
      have hget : poll.options[i]? = some (b.option, c) := by
        rw [heq, hlen]
        exact getElem_append_cons _ _ _
      have hoc : optCount poll.options b.option = c := by
        rw [heq]
        exact optCount_append_cons _ _ _ _ hpre
      have hc0 : ¬ c = 0 := by
        rw [← hoc]
        exact hcnt
      unfold execute_vote
      simp only [hpoll, hball, hpos, hget]
      rw [if_neg hc0]
      exact finishVote_ne_fatal _ _ _ _ _
  · intro hmem
    rw [labelsOf] at hmem
    unfold execute_vote
    simp only [hpoll, hball, (position_eq_none poll.options b.option).mpr hmem]
  · intro hmem hcnt
    rw [labelsOf] at hmem
    cases hpos : position poll.options b.option with
    | none =>
      rw [position_eq_none] at hpos
      exact absurd hmem hpos
    | some i =>
      obtain ⟨pre, c, suf, heq, hpre, hlen⟩ := position_decomp _ _ _ hpos
      have hget : poll.options[i]? = some (b.option, c) := by
        rw [heq, hlen]
        exact getElem_append_cons _ _ _
      have hoc : optCount poll.options b.option = c := by
        rw [heq]
        exact optCount_append_cons _ _ _ _ hpre
      have hc0 : c = 0 := by
        rw [← hoc]
        exact hcnt
      unfold execute_vote
      simp only [hpoll, hball, hpos, hget]
      rw [if_pos hc0]

/-- Witness for C10: a sound revote does not panic, a prior ballot with an
absent option panics on the unwrap, and a zero count panics on the
decrement. -/
theorem revote_branch_panics_witness :
    (execute_vote ⟨[("p", ⟨"c", "q", [("A", 1)]⟩)], [(("x", "p"), ⟨"A"⟩)]⟩
        "x" "p" "A" ≠ .fatal) ∧
    (execute_vote ⟨[("p", ⟨"c", "q", [("A", 0)]⟩)], [(("x", "p"), ⟨"Z"⟩)]⟩
        "x" "p" "A" = .fatal) ∧
    (execute_vote ⟨[("p", ⟨"c", "q", [("A", 0)]⟩)], [(("x", "p"), ⟨"A"⟩)]⟩
        "x" "p" "A" = .fatal) :=
  ⟨(revote_branch_panics _ "x" "p" "A" ⟨"c", "q", [("A", 1)]⟩ ⟨"A"⟩
      (by decide) (by decide)).1 (by decide) (by decide),
   (revote_branch_panics _ "x" "p" "A" ⟨"c", "q", [("A", 0)]⟩ ⟨"Z"⟩
      (by decide) (by decide)).2.1 (by decide),
   (revote_branch_panics _ "x" "p" "A" ⟨"c", "q", [("A", 0)]⟩ ⟨"A"⟩
      (by decide) (by decide)).2.2 (by decide) (by decide)⟩

end Voting
